import Mathlib

/-!
Verification development for the news-analyzer pipeline
(`main.py`, `ai_processing.py`, `database.py`).

The pipeline stages of `main()` and the helper functions are embedded as
executable Lean definitions over lists of article records.  Pandas
DataFrames become `List Article`; each stage is the pure function the
source performs on the rows.
-/

/-- One article row.  `publish_time` models the outcome of
`dateutil_parse(row['publish_time']).astimezone().date()`: `some d` is the
parsed local calendar date, `none` means the field is missing, not a
string, or unparseable (the rows `main.py` lines 219-230 skip).
`category` is empty until scoring assigns it. -/
structure Article where
  url : String
  title : String
  source : String
  publish_time : Option Nat
  description : String
  importance_score : Int
  category : String
  deriving DecidableEq, Repr

/-- Incremental filter, `main.py` line 202:
`raw_combined_df[~raw_combined_df['url'].isin(existing_urls)]`. -/
def filterNewArticles (existing : List String) (raw : List Article) : List Article :=
  raw.filter (fun a => !(existing.contains a.url))

/-- Same-day filter, `main.py` lines 216-230: keep rows whose parsed local
calendar date equals the run's local date; unparseable rows are skipped. -/
def dateFilter (today : Nat) (df : List Article) : List Article :=
  df.filter (fun a => a.publish_time == some today)

/-- Accumulator pass behind `drop_duplicates(keep='first')`: a row is kept
iff its key has not been seen among earlier rows. -/
def dropDupByAux {β : Type} [DecidableEq β] (key : Article → β) (seen : List β) :
    List Article → List Article
  | [] => []
  | a :: l =>
    if key a ∈ seen then dropDupByAux key seen l
    else a :: dropDupByAux key (key a :: seen) l

/-- `DataFrame.drop_duplicates(subset=..., keep='first')`: first occurrence
of each key survives, later occurrences are dropped. -/
def dropDupBy {β : Type} [DecidableEq β] (key : Article → β) (l : List Article) : List Article :=
  dropDupByAux key [] l

/-- Title dedup, `main.py` line 247:
`drop_duplicates(subset=['title'], keep='first')`. -/
def dedupByTitle (df : List Article) : List Article :=
  dropDupBy (fun a => a.title) df

/-- One `{title, score, category}` object of the Scoring Service's parsed
JSON response (`ai_processing.py` lines 90-93). -/
structure ScoreEntry where
  title : String
  score : Int
  category : String
  deriving DecidableEq, Repr

/-- Outcome of the Scoring Service call: a parsed response list, or any
raised exception / unparseable response (`ai_processing.py` line 103). -/
inductive ScoringOutcome where
  | success (resp : List ScoreEntry)
  | failure
  deriving DecidableEq, Repr

/-- The python dict comprehension `{item['title']: ... for item in results_list}`
(`ai_processing.py` line 93): a later entry with the same title overwrites
an earlier one, so lookup returns the last matching entry. -/
def lookupScore (resp : List ScoreEntry) (t : String) : Option ScoreEntry :=
  resp.reverse.find? (fun e => e.title == t)

/-- `ai_processing.py` lines 96-97: map the response back onto one row; a
title absent from the map defaults to score 0 and category `"未知"`. -/
def scoreArticle (resp : List ScoreEntry) (a : Article) : Article :=
  match lookupScore resp a.title with
  | some e => { a with importance_score := e.score, category := e.category }
  | none => { a with importance_score := 0, category := "未知" }

/-- `ai_rank_and_classify_articles` (`ai_processing.py` lines 71-107): on
success every row gets the mapped score/category; on any exception the
`except` arm (lines 103-107) sets the whole batch to score 0,
category `"未知"`, and returns it instead of raising. -/
def ai_rank_and_classify_articles (outcome : ScoringOutcome) (df : List Article) : List Article :=
  if df.isEmpty then df
  else
    match outcome with
    | .success resp => df.map (scoreArticle resp)
    | .failure => df.map (fun a => { a with importance_score := 0, category := "未知" })

/-- `main.py` line 258: `classified_df.groupby('title')['title'].transform('count')`
for one row is the number of rows of the frame sharing its title. -/
def titleCount (df : List Article) (t : String) : Nat :=
  (df.filter (fun a => a.title == t)).length

/-- `main.py` lines 258-260: `frequency_bonus = (title_counts - 1).clip(upper=2)`
added onto `importance_score`. -/
def addFrequencyBonus (df : List Article) : List Article :=
  df.map (fun a =>
    { a with importance_score := a.importance_score + min ((titleCount df a.title : Int) - 1) 2 })

/-- Case-insensitive character-list prefix test (one alignment of
`str.contains(pat, case=False)`). -/
def charsStartWith : List Char → List Char → Bool
  | _, [] => true
  | [], _ :: _ => false
  | a :: as, b :: bs => a == b && charsStartWith as bs

/-- Substring occurrence over character lists. -/
def charsContain : List Char → List Char → Bool
  | [], needle => needle.isEmpty
  | h :: t, needle => charsStartWith (h :: t) needle || charsContain t needle

/-- `Series.str.contains(pat, case=False, na=False)` for a literal (regex-free)
pattern: case-insensitive substring test. -/
def strContainsCI (hay pat : String) : Bool :=
  charsContain hay.toLower.data pat.toLower.data

/-- A force-keep rule (`main.py` lines 38-58).  `other` stands for a rule
dict whose `type` is unrecognized or which lacks its `values`/`conditions`
key: such a rule contributes nothing to the mask. -/
inductive Rule where
  | keyword (values : List String)
  | bySource (values : List String)
  | byCategory (values : List String)
  | composite (src : Option String) (cat : Option String) (kw : Option String)
  | other
  deriving DecidableEq, Repr

/-- Per-rule predicate, `main.py` lines 38-58.  For a keyword rule the code
matches `'|'.join(keywords)` as a regex: with an empty keyword list the
pattern is the empty string, which matches every title. -/
def matchesRule (a : Article) : Rule → Bool
  | .keyword values =>
    match values with
    | [] => true
    | vs => vs.any (fun k => strContainsCI a.title k)
  | .bySource values => values.contains a.source
  | .byCategory values => values.contains a.category
  | .composite src cat kw =>
    (match src with | some s => a.source == s | none => true) &&
    (match cat with | some c => a.category == c | none => true) &&
    (match kw with | some k => strContainsCI a.title k | none => true)
  | .other => false

/-- The OR over the rule list accumulated into `force_keep_mask`. -/
def matchesAnyRule (rules : List Rule) (a : Article) : Bool :=
  rules.any (matchesRule a)

/-- `apply_force_keep_rules` (`main.py` lines 30-63): empty frame or empty
rule list returns `(empty, df)`; otherwise the frame is split by the mask
into `(forced, candidates)`. -/
def apply_force_keep_rules (df : List Article) (rules : List Rule) :
    List Article × List Article :=
  if df.isEmpty || rules.isEmpty then ([], df)
  else (df.filter (matchesAnyRule rules), df.filter (fun a => !(matchesAnyRule rules a)))

/-- Descending insert by `importance_score`, placing the new row before the
first strictly smaller one (ties keep the already-placed row first). -/
def insertScoreDesc (a : Article) : List Article → List Article
  | [] => [a]
  | b :: l =>
    if b.importance_score ≤ a.importance_score then a :: b :: l
    else b :: insertScoreDesc a l

/-- Model of `candidate_df.sort_values(by='importance_score', ascending=False)`
(`main.py` line 268) as a stable descending insertion sort.  Note: pandas'
default `kind='quicksort'` does not promise any tie order; this model fixes
ties to input order, which the source itself does not guarantee. -/
def sortByScoreDesc : List Article → List Article
  | [] => []
  | a :: l => insertScoreDesc a (sortByScoreDesc l)

/-- `CATEGORY_QUOTAS` lookup; `cat in category_counts` at `main.py` line 277
tests exactly membership in the quota dict's key set. -/
def lookupQuota (quotas : List (String × Nat)) (c : String) : Option Nat :=
  (quotas.find? (fun p => p.1 == c)).map Prod.snd

/-- The quota walk, `main.py` lines 274-283: stop once the global limit is
reached; a row of a quota-bearing category is taken only while its running
count is below its quota; any other row is taken unconditionally. -/
def quotaStep (quotas : List (String × Nat)) (totalLimit : Nat) :
    List Article → (String → Nat) → Nat → List Article
  | [], _, _ => []
  | a :: rest, counts, taken =>
    if totalLimit ≤ taken then []
    else
      match lookupQuota quotas a.category with
      | some q =>
        if counts a.category < q then
          a :: quotaStep quotas totalLimit rest
            (fun c => if c = a.category then counts c + 1 else counts c) (taken + 1)
        else quotaStep quotas totalLimit rest counts taken
      | none => a :: quotaStep quotas totalLimit rest counts (taken + 1)

/-- Quota selection from the ranked candidates, `main.py` lines 270-284
(`category_counts` starts at 0 for every quota key, `quota_selection` empty). -/
def quotaSelect (quotas : List (String × Nat)) (totalLimit : Nat) (df : List Article) :
    List Article :=
  quotaStep quotas totalLimit df (fun _ => 0) 0

/-- Steps 263-290 of `main.py`: force-keep split, descending sort of the
candidates, quota walk, then `concat([forced, quota_selection])` deduplicated
on the `(url, title)` pair keeping the first (forced) occurrence. -/
def selectFinal (rules : List Rule) (quotas : List (String × Nat)) (totalLimit : Nat)
    (df : List Article) : List Article :=
  let fc := apply_force_keep_rules df rules
  dropDupBy (fun a => (a.url, a.title))
    (fc.1 ++ quotaSelect quotas totalLimit (sortByScoreDesc fc.2))

/-- What a completed run leaves behind: the final merged list
(`final_list_df`, line 290) and the urls written to the archive
(lines 312-314, the rows of `today_new_articles_df`). -/
structure RunResult where
  finalList : List Article
  archivedUrls : List String
  deriving DecidableEq, Repr

/-- The dataflow of `main()` from `raw_combined_df` on (`main.py` lines
201-314), with the Scoring Service outcome injected: incremental url filter
(202), early exit on no new articles (206), same-day filter (216-230),
early exit on no same-day articles (232), title dedup (247), scoring (253),
early exit when every category equals `"未知"` (254-256), frequency bonus
(258-260), force-keep / sort / quota / merge (264-290), and the archive
write of `today_new_articles_df`'s rows (312-314).  `none` is an early
exit before the final list exists. -/
def runPipeline (existing : List String) (today : Nat) (outcome : ScoringOutcome)
    (rules : List Rule) (quotas : List (String × Nat)) (totalLimit : Nat)
    (raw : List Article) : Option RunResult :=
  let newArticles := filterNewArticles existing raw
  if newArticles.isEmpty then none
  else
    let filtered := dateFilter today newArticles
    if filtered.isEmpty then none
    else
      let todayNew := dedupByTitle filtered
      let classified := ai_rank_and_classify_articles outcome todayNew
      if classified.all (fun a => a.category == "未知") then none
      else
        let bonused := addFrequencyBonus classified
        some ⟨selectFinal rules quotas totalLimit bonused, todayNew.map (fun a => a.url)⟩

/-- Urls already stored in the archive table (`url` is the primary key, so
the table's url list is duplicate-free). -/
def ArchiveUrls := List String

/-- One row handed to `DatabaseManager.write_new_articles`
(`main.py` line 312: `['url', 'title', 'source', 'publish_time', 'description']`). -/
structure ArchiveRow where
  url : String
  title : String
  source : String
  publish_time : String
  description : String
  deriving DecidableEq, Repr

/-- Whether inserting the batch rows one by one into a table currently
holding `stored` urls hits a `url` primary-key violation: a row collides if
its url is already stored or duplicates an earlier row of the same batch. -/
def batchCollides (stored : List String) : List ArchiveRow → Bool
  | [] => false
  | r :: rest => stored.contains r.url || batchCollides (r.url :: stored) rest

/-- `DatabaseManager.write_new_articles` (`database.py` lines 57-75).
`df.to_sql(..., if_exists='append')` runs all inserts in one transaction:
a primary-key violation raises `IntegrityError` and the transaction is
rolled back, so no row of the batch is kept; the surrounding
`try/except` (lines 64-75) catches the error and only logs it.  An empty
frame returns immediately (line 61).  The result is the table's url list
after the call. -/
def write_new_articles (stored : List String) (batch : List ArchiveRow) : List String :=
  if batch.isEmpty then stored
  else if batchCollides stored batch then stored
  else stored ++ batch.map (fun r => r.url)

/-- The spec's quota scenario: five candidate articles, all of category
`"tech"`, with descending scores 9..5. -/
def fiveTechCandidates : List Article :=
  [⟨"q1", "n1", "s", none, "", 9, "tech"⟩,
   ⟨"q2", "n2", "s", none, "", 8, "tech"⟩,
   ⟨"q3", "n3", "s", none, "", 7, "tech"⟩,
   ⟨"q4", "n4", "s", none, "", 6, "tech"⟩,
   ⟨"q5", "n5", "s", none, "", 5, "tech"⟩]

theorem map_eq_self_of_mem {α : Type} (f : α → α) (l : List α) (h : ∀ a ∈ l, f a = a) :
    l.map f = l := by
  induction l with
  | nil => rfl
  | cons a t ih => simp_all

theorem mem_of_mem_dropDupByAux {β : Type} [DecidableEq β] (key : Article → β) :
    ∀ (l : List Article) (seen : List β) (a : Article),
      a ∈ dropDupByAux key seen l → a ∈ l := by
  intro l
  induction l with
  | nil => intro seen a h; simp [dropDupByAux] at h
  | cons b t ih =>
    intro seen a h
    simp only [dropDupByAux] at h
    split at h
    · exact List.mem_cons_of_mem _ (ih seen a h)
    · rcases List.mem_cons.mp h with rfl | h'
      · exact List.mem_cons_self _ _
      · exact List.mem_cons_of_mem _ (ih _ a h')

theorem mem_dropDupByAux_of_canonical {β : Type} [DecidableEq β] (key : Article → β) :
    ∀ (l : List Article) (seen : List β) (a : Article),
      a ∈ l → key a ∉ seen → (∀ b ∈ l, key b = key a → b = a) →
      a ∈ dropDupByAux key seen l := by
  intro l
  induction l with
  | nil => intro seen a ha; simp at ha
  | cons b t ih =>
    intro seen a ha hseen hcanon
    simp only [dropDupByAux]
    by_cases hk : key b ∈ seen
    · rw [if_pos hk]
      rcases List.mem_cons.mp ha with rfl | ha'
      · exact absurd hk hseen
      · exact ih seen a ha' hseen (fun c hc => hcanon c (List.mem_cons_of_mem _ hc))
    · rw [if_neg hk]
      rcases List.mem_cons.mp ha with rfl | ha'
      · exact List.mem_cons_self _ _
      · by_cases hba : key b = key a
        · have hbeq : b = a := hcanon b (List.mem_cons_self _ _) hba
          rw [← hbeq]
          exact List.mem_cons_self _ _
        · refine List.mem_cons_of_mem _ (ih (key b :: seen) a ha' ?_
            (fun c hc => hcanon c (List.mem_cons_of_mem _ hc)))
          intro hmem
          rcases List.mem_cons.mp hmem with h1 | h1
          · exact hba h1.symm
          · exact hseen h1

theorem dropDupByAux_keys {β : Type} [DecidableEq β] (key : Article → β) :
    ∀ (l : List Article) (seen : List β),
      ((dropDupByAux key seen l).map key).Nodup ∧
      ∀ b ∈ dropDupByAux key seen l, key b ∉ seen := by
  intro l
  induction l with
  | nil => intro seen; simp [dropDupByAux]
  | cons a t ih =>
    intro seen
    simp only [dropDupByAux]
    split
    · exact ih seen
    · rename_i hnot
      obtain ⟨hnd, hnotin⟩ := ih (key a :: seen)
      refine ⟨?_, ?_⟩
      · simp only [List.map_cons, List.nodup_cons]
        refine ⟨?_, hnd⟩
        intro hmem
        rcases List.mem_map.mp hmem with ⟨c, hc, hkc⟩
        exact (hnotin c hc) (by rw [hkc]; exact List.mem_cons_self _ _)
      · intro b hb
        rcases List.mem_cons.mp hb with rfl | hb'
        · exact hnot
        · intro hbseen
          exact (hnotin b hb') (List.mem_cons_of_mem _ hbseen)

theorem filter_key_length_one {β : Type} [DecidableEq β] (key : Article → β) :
    ∀ (l : List Article) (a : Article),
      (l.map key).Nodup → a ∈ l →
      (l.filter (fun b => key b == key a)).length = 1 := by
  intro l
  induction l with
  | nil => intro a _ ha; simp at ha
  | cons h t ih =>
    intro a hnd ha
    simp only [List.map_cons, List.nodup_cons] at hnd
    obtain ⟨hnotin, hndt⟩ := hnd
    by_cases hk : key h = key a
    · have ht : t.filter (fun b => key b == key a) = [] := by
        rw [List.filter_eq_nil_iff]
        intro b hb hbeq
        have hkey : key b = key a := by simpa using hbeq
        exact hnotin (by rw [hk, ← hkey]; exact List.mem_map_of_mem key hb)
      simp [List.filter_cons, hk, ht]
    · have ha' : a ∈ t := by
        rcases List.mem_cons.mp ha with rfl | h'
        · exact absurd rfl hk
        · exact h'
      have := ih a hndt ha'
      simp [List.filter_cons, hk, this]

/-- C3: in the code as written, the title dedup of `main.py` line 247 runs
before the frequency count of line 258, so every title occurs exactly once
in the counted frame and the frequency bonus is identically zero: the bonus
step is a no-op on the deduplicated batch.  The claim's scenario (a title
kept after dedup receiving bonus `min(k-1, 2)` for `k` pre-dedup copies)
therefore does not hold on the code. -/
theorem frequency_bonus_after_dedup_is_noop (df : List Article) :
    addFrequencyBonus (dedupByTitle df) = dedupByTitle df := by
  unfold addFrequencyBonus
  apply map_eq_self_of_mem
  intro a ha
  have hnd : ((dedupByTitle df).map (fun x => x.title)).Nodup :=
    (dropDupByAux_keys (fun x => x.title) df []).1
  have h1 : titleCount (dedupByTitle df) a.title = 1 := by
    unfold titleCount
    exact filter_key_length_one (fun x => x.title) (dedupByTitle df) a hnd ha
  rw [h1]
  norm_num

/-- C4: the incremental filter of `main.py` line 202 drops exactly the rows
whose url is in the archive's existing set, before any further processing;
if every fetched url is already archived the new-article set is empty. -/
theorem incremental_url_filter_drops_existing :
    (∀ (existing : List String) (raw : List Article) (a : Article),
        a ∈ filterNewArticles existing raw → a ∈ raw ∧ a.url ∉ existing)
    ∧ ∀ (existing : List String) (raw : List Article),
        (∀ a ∈ raw, a.url ∈ existing) → filterNewArticles existing raw = [] := by
  constructor
  · intro existing raw a h
    rw [filterNewArticles, List.mem_filter] at h
    refine ⟨h.1, ?_⟩
    have h2 := h.2
    simpa [List.contains] using h2
  · intro existing raw h
    rw [filterNewArticles, List.filter_eq_nil_iff]
    intro a ha
    simpa [List.contains] using h a ha

theorem incremental_url_filter_drops_existing_witness :
    ((⟨"u1", "t1", "s1", some 0, "d1", 0, ""⟩ : Article) ∈
        [(⟨"u1", "t1", "s1", some 0, "d1", 0, ""⟩ : Article)] ∧ "u1" ∉ ["u2"])
    ∧ filterNewArticles ["u1"] [⟨"u1", "t1", "s1", some 0, "d1", 0, ""⟩] = [] :=
  ⟨incremental_url_filter_drops_existing.1 ["u2"] _ _ (by decide),
   incremental_url_filter_drops_existing.2 ["u1"] _ (by decide)⟩

/-- C8: the frequency bonus added to a row whose title occurs `n` times in
the counted frame is exactly `min(n - 1, 2)`, which lies in `[0, 2]` for
every member of the frame. -/
theorem frequency_bonus_formula_and_bounds :
    ∀ (df : List Article) (a : Article), a ∈ df →
      ({ a with importance_score :=
          a.importance_score + min ((titleCount df a.title : Int) - 1) 2 } ∈ addFrequencyBonus df)
      ∧ 0 ≤ min ((titleCount df a.title : Int) - 1) 2
      ∧ min ((titleCount df a.title : Int) - 1) 2 ≤ 2 := by
  intro df a ha
  have hmem : a ∈ df.filter (fun b => b.title == a.title) :=
    List.mem_filter.mpr ⟨ha, by simp⟩
  have hcount : 1 ≤ titleCount df a.title := by
    have hpos : 0 < (df.filter (fun b => b.title == a.title)).length :=
      List.length_pos.mpr (List.ne_nil_of_mem hmem)
    unfold titleCount
    omega
  refine ⟨List.mem_map_of_mem _ ha, ?_, min_le_right _ _⟩
  rw [le_min_iff]
  constructor
  · have : (1 : Int) ≤ (titleCount df a.title : Int) := by exact_mod_cast hcount
    omega
  · norm_num

theorem frequency_bonus_formula_and_bounds_witness :
    ({ (⟨"u1", "t1", "s1", some 0, "", 4, "c"⟩ : Article) with importance_score :=
        (4 + min ((titleCount
          [⟨"u1", "t1", "s1", some 0, "", 4, "c"⟩, ⟨"u2", "t1", "s2", some 0, "", 4, "c"⟩,
           ⟨"u3", "t1", "s3", some 0, "", 4, "c"⟩, ⟨"u4", "t2", "s4", some 0, "", 4, "c"⟩]
          "t1" : Int) - 1) 2) } ∈ addFrequencyBonus
          [⟨"u1", "t1", "s1", some 0, "", 4, "c"⟩, ⟨"u2", "t1", "s2", some 0, "", 4, "c"⟩,
           ⟨"u3", "t1", "s3", some 0, "", 4, "c"⟩, ⟨"u4", "t2", "s4", some 0, "", 4, "c"⟩])
    ∧ 0 ≤ min ((titleCount
          [⟨"u1", "t1", "s1", some 0, "", 4, "c"⟩, ⟨"u2", "t1", "s2", some 0, "", 4, "c"⟩,
           ⟨"u3", "t1", "s3", some 0, "", 4, "c"⟩, ⟨"u4", "t2", "s4", some 0, "", 4, "c"⟩]
          "t1" : Int) - 1) 2
    ∧ min ((titleCount
          [⟨"u1", "t1", "s1", some 0, "", 4, "c"⟩, ⟨"u2", "t1", "s2", some 0, "", 4, "c"⟩,
           ⟨"u3", "t1", "s3", some 0, "", 4, "c"⟩, ⟨"u4", "t2", "s4", some 0, "", 4, "c"⟩]
          "t1" : Int) - 1) 2 ≤ 2 :=
  frequency_bonus_formula_and_bounds _ _ (by decide)

/-- C10: `apply_force_keep_rules` partitions its input (the two returned
frames permute the input and no row is in both), and the empty-frame and
empty-rule-list edge cases return an empty forced split with the input
intact as candidates. -/
theorem force_keep_partition :
    ∀ (df : List Article) (rules : List Rule),
      ((apply_force_keep_rules df rules).1 ++ (apply_force_keep_rules df rules).2).Perm df
      ∧ (∀ a : Article,
          ¬(a ∈ (apply_force_keep_rules df rules).1 ∧ a ∈ (apply_force_keep_rules df rules).2))
      ∧ apply_force_keep_rules [] rules = ([], [])
      ∧ apply_force_keep_rules df [] = ([], df) := by
  intro df rules
  refine ⟨?_, ?_, ?_, ?_⟩
  · unfold apply_force_keep_rules
    split
    · simp
    · exact List.filter_append_perm _ df
  · intro a h
    unfold apply_force_keep_rules at h
    split at h
    · simp at h
    · simp only [List.mem_filter] at h
      obtain ⟨⟨_, h1⟩, _, h2⟩ := h
      simp [h1] at h2
  · simp [apply_force_keep_rules]
  · simp [apply_force_keep_rules]

theorem force_keep_partition_witness :
    (((apply_force_keep_rules [⟨"u1", "t1", "s1", some 0, "d1", 0, ""⟩] [Rule.bySource ["s1"]]).1
        ++ (apply_force_keep_rules [⟨"u1", "t1", "s1", some 0, "d1", 0, ""⟩]
              [Rule.bySource ["s1"]]).2).Perm
        [⟨"u1", "t1", "s1", some 0, "d1", 0, ""⟩])
    ∧ ¬((⟨"u1", "t1", "s1", some 0, "d1", 0, ""⟩ : Article) ∈
          (apply_force_keep_rules [⟨"u1", "t1", "s1", some 0, "d1", 0, ""⟩]
            [Rule.bySource ["s1"]]).1
        ∧ (⟨"u1", "t1", "s1", some 0, "d1", 0, ""⟩ : Article) ∈
          (apply_force_keep_rules [⟨"u1", "t1", "s1", some 0, "d1", 0, ""⟩]
            [Rule.bySource ["s1"]]).2)
    ∧ apply_force_keep_rules [] [Rule.bySource ["s1"]] = ([], [])
    ∧ apply_force_keep_rules [⟨"u1", "t1", "s1", some 0, "d1", 0, ""⟩] [] =
        ([], [⟨"u1", "t1", "s1", some 0, "d1", 0, ""⟩]) :=
  ⟨(force_keep_partition _ [Rule.bySource ["s1"]]).1,
   (force_keep_partition _ [Rule.bySource ["s1"]]).2.1 _,
   (force_keep_partition [] [Rule.bySource ["s1"]]).2.2.1,
   (force_keep_partition [⟨"u1", "t1", "s1", some 0, "d1", 0, ""⟩] []).2.2.2⟩

theorem batchCollides_of_mem :
    ∀ (batch : List ArchiveRow) (stored : List String) (r : ArchiveRow),
      r ∈ batch → r.url ∈ stored → batchCollides stored batch = true := by
  intro batch
  induction batch with
  | nil => intro stored r hr; simp at hr
  | cons b t ih =>
    intro stored r hr hurl
    simp only [batchCollides, Bool.or_eq_true]
    rcases List.mem_cons.mp hr with rfl | hr'
    · left
      simpa [List.contains] using hurl
    · right
      exact ih (b.url :: stored) r hr' (List.mem_cons_of_mem _ hurl)

theorem batchCollides_eq_false :
    ∀ (batch : List ArchiveRow) (stored : List String),
      (∀ r ∈ batch, r.url ∉ stored) → (batch.map (fun r => r.url)).Nodup →
      batchCollides stored batch = false := by
  intro batch
  induction batch with
  | nil => intro stored _ _; rfl
  | cons b t ih =>
    intro stored hfresh hnd
    simp only [List.map_cons, List.nodup_cons] at hnd
    simp only [batchCollides, Bool.or_eq_false_iff]
    constructor
    · simpa [List.contains] using hfresh b (List.mem_cons_self _ _)
    · refine ih (b.url :: stored) ?_ hnd.2
      intro r hr hmem
      rcases List.mem_cons.mp hmem with h1 | h1
      · exact hnd.1 (h1 ▸ List.mem_map_of_mem (fun x => x.url) hr)
      · exact hfresh r (List.mem_cons_of_mem _ hr) h1

/-- C6 counterexample: with `"http://a"` already stored, appending a batch
holding a colliding row (url `"http://a"`) and a fresh row (url `"http://b"`)
leaves the store unchanged — the fresh row is NOT persisted, because the
transactional `to_sql` call fails as a whole and the exception is merely
logged. -/
theorem write_collision_drops_whole_batch_cex :
    write_new_articles ["http://a"]
        [⟨"http://a", "ta", "s", "p", "d"⟩, ⟨"http://b", "tb", "s", "p", "d"⟩] = ["http://a"]
    ∧ "http://b" ∉ write_new_articles ["http://a"]
        [⟨"http://a", "ta", "s", "p", "d"⟩, ⟨"http://b", "tb", "s", "p", "d"⟩] := by
  decide

/-- C6 amended: a url collision anywhere in the batch makes the whole
`to_sql` transaction fail and roll back, so the store is unchanged (and the
exception is caught and logged, not propagated); a collision-free batch
with pairwise distinct urls is appended in full. -/
theorem write_batch_atomic_on_collision :
    (∀ (stored : List String) (batch : List ArchiveRow) (r : ArchiveRow),
        r ∈ batch → r.url ∈ stored → write_new_articles stored batch = stored)
    ∧ ∀ (stored : List String) (batch : List ArchiveRow),
        (∀ r ∈ batch, r.url ∉ stored) → (batch.map (fun r => r.url)).Nodup →
        write_new_articles stored batch = stored ++ batch.map (fun r => r.url) := by
  constructor
  · intro stored batch r hr hurl
    unfold write_new_articles
    rw [if_neg, if_pos (batchCollides_of_mem batch stored r hr hurl)]
    simp [List.isEmpty_iff]
    exact List.ne_nil_of_mem hr
  · intro stored batch hfresh hnd
    unfold write_new_articles
    by_cases hb : batch = []
    · subst hb; simp
    · rw [if_neg (by simp [List.isEmpty_iff, hb]),
        if_neg (by simp [batchCollides_eq_false batch stored hfresh hnd])]

theorem write_batch_atomic_on_collision_witness :
    write_new_articles ["u"] [⟨"u", "t", "s", "p", "d"⟩] = ["u"]
    ∧ write_new_articles [] [⟨"a", "t", "s", "p", "d"⟩, ⟨"b", "t2", "s", "p", "d"⟩] =
        ["a", "b"] :=
  ⟨write_batch_atomic_on_collision.1 ["u"] _ ⟨"u", "t", "s", "p", "d"⟩ (by decide) (by decide),
   write_batch_atomic_on_collision.2 [] _ (by decide) (by decide)⟩

/-- C1 counterexample: a run over one fresh same-day article with the
Scoring Service raising.  The `except` fallback does degrade the batch to
score 0 / category `"未知"`, but the pipeline then hits the all-`"未知"`
check of `main.py` lines 254-256 and returns early: the run aborts instead
of continuing to force-keep, quota selection and export. -/
theorem scoring_failure_aborts_run_cex :
    ai_rank_and_classify_articles .failure [⟨"u1", "t1", "s1", some 0, "d", 0, ""⟩] =
        [⟨"u1", "t1", "s1", some 0, "d", 0, "未知"⟩]
    ∧ runPipeline [] 0 .failure [] [] 20 [⟨"u1", "t1", "s1", some 0, "d", 0, ""⟩] = none := by
  constructor
  · rfl
  · rfl

/-- C1 amended: when the Scoring Service raises, every article of the batch
leaves the scoring step with `importance_score = 0` and
`category = "未知"`; but then `main.py` lines 254-256 see a batch whose
categories are all `"未知"` and abort the run (early return), so the
pipeline never reaches force-keep, quota selection or export. -/
theorem scoring_failure_degrades_batch_then_aborts :
    (∀ (df : List Article), ∀ a ∈ ai_rank_and_classify_articles .failure df,
        a.importance_score = 0 ∧ a.category = "未知")
    ∧ ∀ (existing : List String) (today : Nat) (rules : List Rule)
        (quotas : List (String × Nat)) (totalLimit : Nat) (raw : List Article),
        runPipeline existing today .failure rules quotas totalLimit raw = none := by
  constructor
  · intro df a ha
    simp only [ai_rank_and_classify_articles] at ha
    split at ha
    · rename_i hemp
      rw [List.isEmpty_iff] at hemp
      rw [hemp] at ha
      simp at ha
    · rcases List.mem_map.mp ha with ⟨b, _, rfl⟩
      exact ⟨rfl, rfl⟩
  · intro existing today rules quotas totalLimit raw
    unfold runPipeline
    dsimp only
    split
    · rfl
    · split
      · rfl
      · split
        · rfl
        · rename_i h
          exfalso
          apply h
          rw [List.all_eq_true]
          intro x hx
          simp only [ai_rank_and_classify_articles] at hx
          split at hx
          · rename_i hemp
            rw [List.isEmpty_iff] at hemp
            rw [hemp] at hx
            simp at hx
          · rcases List.mem_map.mp hx with ⟨b, _, rfl⟩
            simp

theorem scoring_failure_degrades_batch_then_aborts_witness :
    ((⟨"u1", "t1", "s1", some 0, "d", 0, "未知"⟩ : Article).importance_score = 0
      ∧ (⟨"u1", "t1", "s1", some 0, "d", 0, "未知"⟩ : Article).category = "未知")
    ∧ runPipeline ["u9"] 3 .failure [Rule.other] [("tech", 2)] 5
        [⟨"u1", "t1", "s1", some 3, "d", 0, ""⟩] = none :=
  ⟨scoring_failure_degrades_batch_then_aborts.1 [⟨"u1", "t1", "s1", some 0, "d", 0, ""⟩]
      _ (by decide),
   scoring_failure_degrades_batch_then_aborts.2 ["u9"] 3 [Rule.other] [("tech", 2)] 5 _⟩

theorem perm_insertScoreDesc (a : Article) :
    ∀ l : List Article, (insertScoreDesc a l).Perm (a :: l) := by
  intro l
  induction l with
  | nil => simp [insertScoreDesc]
  | cons b t ih =>
    simp only [insertScoreDesc]
    split
    · exact List.Perm.refl _
    · exact (List.Perm.cons b ih).trans (List.Perm.swap a b t)

theorem perm_sortByScoreDesc : ∀ l : List Article, (sortByScoreDesc l).Perm l := by
  intro l
  induction l with
  | nil => simp [sortByScoreDesc]
  | cons a t ih =>
    exact (perm_insertScoreDesc a _).trans (List.Perm.cons a ih)

theorem mem_of_mem_quotaStep (quotas : List (String × Nat)) (totalLimit : Nat) :
    ∀ (df : List Article) (counts : String → Nat) (taken : Nat) (a : Article),
      a ∈ quotaStep quotas totalLimit df counts taken → a ∈ df := by
  intro df
  induction df with
  | nil => intro counts taken a h; simp [quotaStep] at h
  | cons b t ih =>
    intro counts taken a h
    simp only [quotaStep] at h
    split at h
    · simp at h
    · split at h
      · split at h
        · rcases List.mem_cons.mp h with rfl | h'
          · exact List.mem_cons_self _ _
          · exact List.mem_cons_of_mem _ (ih _ _ a h')
        · exact List.mem_cons_of_mem _ (ih _ _ a h)
      · rcases List.mem_cons.mp h with rfl | h'
        · exact List.mem_cons_self _ _
        · exact List.mem_cons_of_mem _ (ih _ _ a h')

/-- C5: any article of the batch matching at least one force-keep rule is a
member of the final merged list, whatever its score, the quota table and
the global limit — the forced split precedes the quota walk, its rows are
concatenated first, and in a batch with pairwise-distinct titles (the
invariant established by the title dedup of `main.py` line 247) the
`(url, title)` dedup of line 289 keeps them. -/
theorem force_keep_articles_in_final_list :
    ∀ (rules : List Rule) (quotas : List (String × Nat)) (totalLimit : Nat)
      (df : List Article) (a : Article),
      (df.map (fun x => x.title)).Nodup → a ∈ df → matchesAnyRule rules a = true →
      a ∈ selectFinal rules quotas totalLimit df := by
  intro rules quotas totalLimit df a hnd ha hmatch
  have hdf : df.isEmpty = false := by
    cases df
    · simp at ha
    · rfl
  have hrules : rules.isEmpty = false := by
    cases rules
    · simp [matchesAnyRule] at hmatch
    · rfl
  have hfc : apply_force_keep_rules df rules
      = (df.filter (matchesAnyRule rules), df.filter (fun x => !(matchesAnyRule rules x))) := by
    unfold apply_force_keep_rules
    rw [if_neg]
    simp [hdf, hrules]
  unfold selectFinal
  rw [hfc]
  have haf : a ∈ df.filter (matchesAnyRule rules) := List.mem_filter.mpr ⟨ha, hmatch⟩
  have hsub : ∀ b ∈ df.filter (matchesAnyRule rules) ++
      quotaSelect quotas totalLimit
        (sortByScoreDesc (df.filter (fun x => !(matchesAnyRule rules x)))), b ∈ df := by
    intro b hb
    rcases List.mem_append.mp hb with hb' | hb'
    · exact (List.mem_filter.mp hb').1
    · have hb2 := mem_of_mem_quotaStep quotas totalLimit _ _ _ b hb'
      have hb3 := (perm_sortByScoreDesc _).mem_iff.mp hb2
      exact (List.mem_filter.mp hb3).1
  unfold dropDupBy
  apply mem_dropDupByAux_of_canonical
  · exact List.mem_append_left _ haf
  · simp
  · intro b hb hkey
    have htitle : b.title = a.title := congrArg Prod.snd hkey
    exact List.inj_on_of_nodup_map hnd (hsub b hb) ha htitle

theorem force_keep_articles_in_final_list_witness :
    (⟨"um", "Quiet", "sM", some 0, "", 0, "tech"⟩ : Article) ∈
      selectFinal [Rule.bySource ["sM"]] [("tech", 0)] 1
        [⟨"uh", "TopStory", "sX", some 0, "", 9, "tech"⟩,
         ⟨"um", "Quiet", "sM", some 0, "", 0, "tech"⟩] :=
  force_keep_articles_in_final_list [Rule.bySource ["sM"]] [("tech", 0)] 1
    [⟨"uh", "TopStory", "sX", some 0, "", 9, "tech"⟩,
     ⟨"um", "Quiet", "sM", some 0, "", 0, "tech"⟩]
    ⟨"um", "Quiet", "sM", some 0, "", 0, "tech"⟩ (by decide) (by decide) (by decide)

theorem quotaStep_length_le (quotas : List (String × Nat)) (totalLimit : Nat) :
    ∀ (df : List Article) (counts : String → Nat) (taken : Nat),
      (quotaStep quotas totalLimit df counts taken).length ≤ totalLimit - taken := by
  intro df
  induction df with
  | nil => intro counts taken; simp [quotaStep]
  | cons a t ih =>
    intro counts taken
    simp only [quotaStep]
    split
    · simp
    · rename_i hlt
      split
      · split
        · simp only [List.length_cons]
          have := ih (fun c => if c = a.category then counts c + 1 else counts c) (taken + 1)
          omega
        · exact ih counts taken
      · simp only [List.length_cons]
        have := ih counts (taken + 1)
        omega

theorem bump_sum_not_mem (t : List (String × Nat)) (c : String) (counts : String → Nat) :
    c ∉ t.map Prod.fst →
    (t.map (fun p => p.2 - (if p.1 = c then counts p.1 + 1 else counts p.1))).sum
      = (t.map (fun p => p.2 - counts p.1)).sum := by
  intro hc
  induction t with
  | nil => rfl
  | cons p r ih =>
    simp only [List.map_cons, List.mem_cons] at hc ⊢
    push_neg at hc
    rw [List.sum_cons, List.sum_cons, if_neg (fun h => hc.1 h.symm), ih hc.2]

theorem bump_sum_lookup (quotas : List (String × Nat)) (c : String) (q : Nat)
    (counts : String → Nat) :
    (quotas.map Prod.fst).Nodup → lookupQuota quotas c = some q → counts c < q →
    (quotas.map (fun p => p.2 - (if p.1 = c then counts p.1 + 1 else counts p.1))).sum + 1
      = (quotas.map (fun p => p.2 - counts p.1)).sum := by
  induction quotas with
  | nil => intro _ h; simp [lookupQuota] at h
  | cons p t ih =>
    intro hnd hlook hlt
    simp only [List.map_cons, List.nodup_cons] at hnd
    by_cases hpc : p.1 = c
    · have hq : p.2 = q := by
        simpa [lookupQuota, List.find?_cons, hpc] using hlook
      simp only [List.map_cons, List.sum_cons, if_pos hpc]
      rw [bump_sum_not_mem t c counts (hpc ▸ hnd.1)]
      have hcc : counts p.1 = counts c := by rw [hpc]
      omega
    · have hlook' : lookupQuota t c = some q := by
        simpa [lookupQuota, List.find?_cons, hpc] using hlook
      simp only [List.map_cons, List.sum_cons, if_neg hpc]
      have := ih hnd.2 hlook' hlt
      omega

theorem quotaStep_length_le_slack (quotas : List (String × Nat)) (totalLimit : Nat) :
    ∀ (df : List Article) (counts : String → Nat) (taken : Nat),
      (quotas.map Prod.fst).Nodup →
      (quotaStep quotas totalLimit df counts taken).length ≤
        (quotas.map (fun p => p.2 - counts p.1)).sum +
          (df.filter (fun a => (lookupQuota quotas a.category).isNone)).length := by
  intro df
  induction df with
  | nil => intro counts taken _; simp [quotaStep]
  | cons a t ih =>
    intro counts taken hnd
    simp only [quotaStep]
    split
    · simp
    · split
      · rename_i q heq
        have hfa : (a :: t).filter (fun x => (lookupQuota quotas x.category).isNone)
            = t.filter (fun x => (lookupQuota quotas x.category).isNone) := by
          simp [List.filter_cons, heq]
        rw [hfa]
        split
        · rename_i hlt
          simp only [List.length_cons]
          have hrec := ih (fun c => if c = a.category then counts c + 1 else counts c)
            (taken + 1) hnd
          have hbump := bump_sum_lookup quotas a.category q counts hnd heq hlt
          simp only at hrec
          omega
        · exact ih counts taken hnd
      · rename_i heq
        have hfa : (a :: t).filter (fun x => (lookupQuota quotas x.category).isNone)
            = a :: t.filter (fun x => (lookupQuota quotas x.category).isNone) := by
          simp [List.filter_cons, heq]
        rw [hfa]
        simp only [List.length_cons]
        have hrec := ih counts (taken + 1) hnd
        omega

theorem quotaStep_catcount_le (quotas : List (String × Nat)) (totalLimit : Nat)
    (c : String) (q : Nat) (hlook : lookupQuota quotas c = some q) :
    ∀ (df : List Article) (counts : String → Nat) (taken : Nat),
      counts c ≤ q →
      ((quotaStep quotas totalLimit df counts taken).filter
          (fun a => a.category == c)).length ≤ q - counts c := by
  intro df
  induction df with
  | nil => intro counts taken _; simp [quotaStep]
  | cons a t ih =>
    intro counts taken hle
    simp only [quotaStep]
    split
    · simp
    · split
      · rename_i q' heq
        split
        · rename_i hlt
          by_cases hac : a.category = c
          · have hq' : q' = q := by
              rw [hac, hlook] at heq
              exact (Option.some.inj heq).symm
            have hfa : (a.category == c) = true := by simp [hac]
            have hclt : counts c < q := by
              have := hlt
              rw [hac, hq'] at this
              exact this
            simp only [hac]
            simp only [List.filter_cons, hfa, if_true, List.length_cons]
            have hrec := ih (fun x => if x = c then counts x + 1 else counts x)
              (taken + 1) (by simpa using hclt)
            simp at hrec
            omega
          · have hfa : (a.category == c) = false := by simp [hac]
            have hne : ¬(c = a.category) := fun h => hac h.symm
            have hrec := ih (fun x => if x = a.category then counts x + 1 else counts x)
              (taken + 1) (by simp [if_neg hne]; exact hle)
            simp only [List.filter_cons, hfa]
            simp only [if_neg hne] at hrec
            simpa using hrec
        · exact ih counts taken hle
      · rename_i heq
        have hac : (a.category == c) = false := by
          by_contra h
          have : a.category = c := by
            simpa using h
          rw [this, hlook] at heq
          cases heq
        simp only [List.filter_cons, hac]
        simpa using ih counts (taken + 1) hle

/-- C2: over any quota table with pairwise-distinct category keys, any
total limit and any candidate list, the quota walk selects at most
`min(totalLimit, sum of quotas + number of quota-free candidates)` rows in
total, and at most `q` rows of any category `c` whose quota is `q`. -/
theorem quota_selection_bounds :
    ∀ (quotas : List (String × Nat)) (totalLimit : Nat) (df : List Article),
      (quotas.map Prod.fst).Nodup →
      ((quotaSelect quotas totalLimit df).length ≤
        min totalLimit
          ((quotas.map Prod.snd).sum +
            (df.filter (fun a => (lookupQuota quotas a.category).isNone)).length))
      ∧ ∀ (c : String) (q : Nat), lookupQuota quotas c = some q →
          ((quotaSelect quotas totalLimit df).filter (fun a => a.category == c)).length ≤ q := by
  intro quotas totalLimit df hnd
  constructor
  · rw [le_min_iff]
    constructor
    · have := quotaStep_length_le quotas totalLimit df (fun _ => 0) 0
      simpa using this
    · have := quotaStep_length_le_slack quotas totalLimit df (fun _ => 0) 0 hnd
      simpa using this
  · intro c q hlook
    have := quotaStep_catcount_le quotas totalLimit c q hlook df (fun _ => 0) 0 (Nat.zero_le q)
    simpa using this

theorem quota_selection_bounds_witness :
    ((quotaSelect [("tech", 2)] 3 fiveTechCandidates).length ≤
      min 3
        ((([("tech", 2)] : List (String × Nat)).map Prod.snd).sum +
          (fiveTechCandidates.filter
            (fun a => (lookupQuota [("tech", 2)] a.category).isNone)).length))
    ∧ ((quotaSelect [("tech", 2)] 3 fiveTechCandidates).filter
        (fun a => a.category == "tech")).length ≤ 2 :=
  ⟨(quota_selection_bounds [("tech", 2)] 3 fiveTechCandidates (by decide)).1,
   (quota_selection_bounds [("tech", 2)] 3 fiveTechCandidates (by decide)).2 "tech" 2
     (by decide)⟩

/-- C9: whenever a run completes, the urls handed to the archive write are
exactly the urls of `today_new_articles_df` — the incremental-filtered,
same-day, title-deduplicated batch — so any raw article dropped by the date
filter or the title dedup (and carrying its own url) is not archived. -/
theorem archived_urls_are_today_new_batch :
    ∀ (existing : List String) (today : Nat) (outcome : ScoringOutcome)
      (rules : List Rule) (quotas : List (String × Nat)) (totalLimit : Nat)
      (raw : List Article) (r : RunResult),
      runPipeline existing today outcome rules quotas totalLimit raw = some r →
      r.archivedUrls =
        (dedupByTitle (dateFilter today (filterNewArticles existing raw))).map (fun a => a.url)
      ∧ ((raw.map (fun a => a.url)).Nodup →
          ∀ a ∈ raw, a ∉ dedupByTitle (dateFilter today (filterNewArticles existing raw)) →
          a.url ∉ r.archivedUrls) := by
  intro existing today outcome rules quotas totalLimit raw r hrun
  have harch : r.archivedUrls =
      (dedupByTitle (dateFilter today (filterNewArticles existing raw))).map (fun a => a.url) := by
    unfold runPipeline at hrun
    dsimp only at hrun
    split at hrun
    · cases hrun
    · split at hrun
      · cases hrun
      · split at hrun
        · cases hrun
        · rw [← Option.some.inj hrun]
  refine ⟨harch, ?_⟩
  intro hnd a ha hnot hmem
  rw [harch] at hmem
  rcases List.mem_map.mp hmem with ⟨b, hb, hurl⟩
  have hbraw : b ∈ raw := by
    have h1 : b ∈ dateFilter today (filterNewArticles existing raw) := by
      unfold dedupByTitle dropDupBy at hb
      exact mem_of_mem_dropDupByAux (fun x => x.title) _ [] b hb
    have h2 : b ∈ filterNewArticles existing raw := (List.mem_filter.mp h1).1
    exact (List.mem_filter.mp h2).1
  have hba : b = a := List.inj_on_of_nodup_map hnd hbraw ha hurl
  exact hnot (hba ▸ hb)

theorem archived_urls_are_today_new_batch_witness :
    (RunResult.mk [⟨"u1", "t", "s1", some 0, "", 5, "tech"⟩] ["u1"]).archivedUrls =
      (dedupByTitle (dateFilter 0 (filterNewArticles []
        [⟨"u1", "t", "s1", some 0, "", 0, ""⟩,
         ⟨"u2", "t", "s2", some 0, "", 0, ""⟩]))).map (fun a => a.url)
    ∧ (⟨"u2", "t", "s2", some 0, "", 0, ""⟩ : Article).url ∉
        (RunResult.mk [⟨"u1", "t", "s1", some 0, "", 5, "tech"⟩] ["u1"]).archivedUrls :=
  ⟨(archived_urls_are_today_new_batch [] 0 (.success [⟨"t", 5, "tech"⟩]) [] [] 20
      [⟨"u1", "t", "s1", some 0, "", 0, ""⟩, ⟨"u2", "t", "s2", some 0, "", 0, ""⟩]
      (RunResult.mk [⟨"u1", "t", "s1", some 0, "", 5, "tech"⟩] ["u1"]) (by decide)).1,
   (archived_urls_are_today_new_batch [] 0 (.success [⟨"t", 5, "tech"⟩]) [] [] 20
      [⟨"u1", "t", "s1", some 0, "", 0, ""⟩, ⟨"u2", "t", "s2", some 0, "", 0, ""⟩]
      (RunResult.mk [⟨"u1", "t", "s1", some 0, "", 5, "tech"⟩] ["u1"]) (by decide)).2
     (by decide) ⟨"u2", "t", "s2", some 0, "", 0, ""⟩ (by decide) (by decide)⟩
